import Mathlib

/-!
# babeld `util.c`: sequence numbers, timestamps, prefixes

A shallow embedding of the primitives of `util.c` and the properties the
specification states about them.

Conventions of the embedding.

* Arithmetic on C integers is arithmetic on mathematical integers (`Int`);
  the conversion of a value to `unsigned char` is written out as `% 256`, and
  the conversion of a `long` value to `int` as `to_int`.
* `x & 0xFFFF` on a (possibly negative) two's complement `int` is the
  Euclidean remainder `x % 65536`.
* A `const unsigned char *` is the sequence of bytes found at the pointer:
  a function from the index to the byte stored there.
* A `struct timeval *` is an address in a heap of `timeval` cells, so that
  aliasing between the arguments of a function is part of the model.
* A C truth value returned as `int` (0 or 1) is a `Bool`.
* A C string is the list of its characters before the terminating NUL.
* A function that returns 0 or -1 and gives its results through pointers
  returns `some` of the results or `none`.
-/

namespace Babel

/-! ## Sequence numbers -/

/-- Conversion of a value to the type `unsigned char`. -/
def to_uchar (n : Nat) : Nat := n % 256

/-- The function `seqno_compare` of `util.c`.  Its parameters are declared
`unsigned char` in `util.c`, so the arguments are converted on entry; the
subtraction is done on the promoted `int` values. -/
def seqno_compare (s1 s2 : Nat) : Int :=
  let s1 : Int := to_uchar s1
  let s2 : Int := to_uchar s2
  if s1 = s2 then 0
  else if (s2 - s1) % 65536 < 0x8000 then -1
  else 1

/-- The function `seqno_minus` of `util.c`, with the same parameter types as
`seqno_compare`. -/
def seqno_minus (s1 s2 : Nat) : Int :=
  let s1 : Int := to_uchar s1
  let s2 : Int := to_uchar s2
  if s1 = s2 then 0
  else if (s2 - s1) % 65536 < 0x8000 then -((s2 - s1) % 65536)
  else (s1 - s2) % 65536

/-! ## Byte buffers and prefixes -/

/-- The bytes found at a pointer `p`: index `i` gives the byte `p[i]`. -/
abbrev Bytes := Nat → Nat

/-- The C library function `memcmp`, started at index `i`: the difference of
the first pair of bytes that differ among the next `n`, and 0 when there is
none. -/
def memcmpFrom (a b : Bytes) (i : Nat) : Nat → Int
  | 0 => 0
  | n + 1 => if a i = b i then memcmpFrom a b (i + 1) n else (a i : Int) - (b i : Int)

/-- The C library function `memcmp(a, b, n)`. -/
def memcmp (a b : Bytes) (n : Nat) : Int := memcmpFrom a b 0 n

/-- The C library function `memset(p, c, n)`: the bytes at `p` afterwards. -/
def memset (p : Bytes) (c n : Nat) : Bytes :=
  fun i => if i < n then to_uchar c else p i

/-- The C library function `memcpy(dst, src, n)` on buffers that do not
overlap: the bytes at `dst` afterwards. -/
def memcpy (dst src : Bytes) (n : Nat) : Bytes :=
  fun i => if i < n then src i else dst i

/-- The assignment `p[i] = v` to an `unsigned char`: the bytes at `p`
afterwards. -/
def store (p : Bytes) (i : Nat) (v : Nat) : Bytes :=
  fun j => if j = i then to_uchar v else p j

/-- Bit `i` of a buffer, bit 0 being the most significant bit of byte 0. -/
def addr_bit (a : Bytes) (i : Nat) : Bool := (a (i / 8)).testBit (7 - i % 8)

/-- The function `in_prefix` of `util.c`.  The parameter `plen` and the local
`m` are `unsigned char`; the shift is done on `int`. -/
def in_prefix (address pfx : Bytes) (plen : Nat) : Bool :=
  let plen := to_uchar plen
  let plen := if plen > 128 then 128 else plen
  if memcmp address pfx (plen / 8) ≠ 0 then false
  else
    let m := to_uchar (0xFF <<< (8 - plen % 8))
    (address (plen / 8) &&& m) == (pfx (plen / 8) &&& m)

/-- The function `mask_prefix` of `util.c`, for a destination `ret` that does
not overlap the source: the bytes at `ret` afterwards. -/
def mask_prefix (ret pfx : Bytes) (plen : Nat) : Bytes :=
  let plen := to_uchar plen
  let plen := if plen > 128 then 128 else plen
  let ret := memset ret 0 16
  let ret := memcpy ret pfx (plen / 8)
  if plen % 8 ≠ 0 then
    store ret (plen / 8) (pfx (plen / 8) &&& (0xFF <<< (8 - plen % 8)))
  else ret

/-- Modelled from the spec: the constant `zeroes` is declared outside
`util.c`; it is the all-zero address of 16 bytes. -/
def zeroes : Bytes := fun _ => 0

/-- The function `martian_prefix` of `util.c`; `plen` is an `int`. -/
def martian_prefix (pfx : Bytes) (plen : Int) : Bool :=
  (decide (plen ≥ 8) && pfx 0 == 0xFF) ||
  (decide (plen ≥ 10) && pfx 0 == 0xFE && (pfx 1 &&& 0xC0) == 0x80) ||
  (decide (plen ≥ 128) && memcmp pfx zeroes 16 == 0)

/-- The address `ff00::`. -/
def addr_ff00 : Bytes := fun i => if i = 0 then 0xFF else 0

/-- The address `ff02::1:3`. -/
def addr_ff02 : Bytes :=
  fun i => if i = 0 then 0xFF else if i = 1 then 2 else if i = 13 then 1 else if i = 15 then 3 else 0

/-- The address `2001:db8:ffff::1`. -/
def addr_2001 : Bytes :=
  fun i => if i = 0 then 0x20 else if i = 1 then 0x01 else if i = 2 then 0x0d
    else if i = 3 then 0xb8 else if i = 4 then 0xFF else if i = 5 then 0xFF
    else if i = 15 then 1 else 0

/-! ## Timestamps -/

/-- The C type `struct timeval`; both fields are signed integers. -/
structure timeval where
  tv_sec : Int
  tv_usec : Int
  deriving DecidableEq, Repr

/-- A heap of `struct timeval` cells; a `struct timeval *` is an address. -/
abbrev Heap := Nat → timeval

/-- The heap after a write of `v` to the cell at `p`. -/
def Heap.write (h : Heap) (p : Nat) (v : timeval) : Heap :=
  fun q => if q = p then v else h q

/-- A timestamp whose sub-second component lies in `[0, 1000000)`. -/
def normalized (t : timeval) : Prop := 0 ≤ t.tv_usec ∧ t.tv_usec < 1000000

instance (t : timeval) : Decidable (normalized t) := by
  unfold normalized; infer_instance

/-- The total number of microseconds a timestamp stands for. -/
def total_usec (t : timeval) : Int := t.tv_sec * 1000000 + t.tv_usec

/-- The value `{0, 0}` that stands for infinity. -/
def infinity : timeval := ⟨0, 0⟩

/-- The function `timeval_minus` of `util.c`: the heap afterwards.  The field
`tv_usec` of `*d` is written before `tv_sec` is computed, as in the source. -/
def timeval_minus (h : Heap) (d s1 s2 : Nat) : Heap :=
  if (h s1).tv_usec > (h s2).tv_usec then
    let h1 := h.write d { h d with tv_usec := (h s1).tv_usec - (h s2).tv_usec }
    h1.write d { h1 d with tv_sec := (h1 s1).tv_sec - (h1 s2).tv_sec }
  else
    let h1 := h.write d { h d with tv_usec := (h s1).tv_usec + 1000000 - (h s2).tv_usec }
    h1.write d { h1 d with tv_sec := (h1 s1).tv_sec - (h1 s2).tv_sec - 1 }

/-- The function `timeval_compare` of `util.c`, on the values pointed to. -/
def timeval_compare (s1 s2 : timeval) : Int :=
  if s1.tv_sec < s2.tv_sec then -1
  else if s1.tv_sec > s2.tv_sec then 1
  else if s1.tv_usec < s2.tv_usec then -1
  else if s1.tv_usec > s2.tv_usec then 1
  else 0

/-- The function `timeval_min` of `util.c`: the heap afterwards. -/
def timeval_min (h : Heap) (d s : Nat) : Heap :=
  if (h s).tv_sec = 0 then h
  else if (h d).tv_sec = 0 ∨ timeval_compare (h d) (h s) > 0 then h.write d (h s)
  else h

/-- A heap with `a` in cell 0, `b` in cell 1 and `infinity` elsewhere. -/
def heap2 (a b : timeval) : Heap :=
  fun p => if p = 0 then a else if p = 1 then b else infinity

/-- The smallest value of the C type `int` (32 bits). -/
def INT_MIN : Int := -2147483648

/-- The largest value of the C type `int` (32 bits). -/
def INT_MAX : Int := 2147483647

/-- Whether a value lies in the range of the C type `int`. -/
def fits_int (x : Int) : Prop := INT_MIN ≤ x ∧ x ≤ INT_MAX

instance (x : Int) : Decidable (fits_int x) := by
  unfold fits_int; infer_instance

/-- Conversion of a `long` value to the type `int`: the value modulo `2 ^ 32`
that lies in the range of `int`. -/
def to_int (x : Int) : Int := (x + 2147483648) % 4294967296 - 2147483648

/-- The expression `timeval_minus_msec` returns, as computed on the `long`
fields before the conversion to the return type; the C division truncates
toward zero. -/
def timeval_minus_msec_long (s1 s2 : timeval) : Int :=
  (s1.tv_sec - s2.tv_sec) * 1000 + Int.tdiv (s1.tv_usec - s2.tv_usec) 1000

/-- The function `timeval_minus_msec` of `util.c`, on the values pointed to;
the return type is `int`. -/
def timeval_minus_msec (s1 s2 : timeval) : Int :=
  to_int (timeval_minus_msec_long s1 s2)

/-- The function `timeval_plus_msec` of `util.c`: the heap afterwards.  The
field `tv_sec` of `*d` is written before `s->tv_usec` is read, as in the
source; the C operators `/` and `%` truncate toward zero; the local `usecs` is
an `int`. -/
def timeval_plus_msec (h : Heap) (d s : Nat) (msecs : Int) : Heap :=
  let h1 := h.write d { h d with tv_sec := (h s).tv_sec + Int.tdiv msecs 1000 }
  let usecs := to_int ((h1 s).tv_usec + Int.tmod msecs 1000 * 1000)
  if usecs < 1000000 then
    h1.write d { h1 d with tv_usec := usecs }
  else
    let h2 := h1.write d { h1 d with tv_usec := usecs - 1000000 }
    h2.write d { h2 d with tv_sec := (h2 d).tv_sec + 1 }

/-- The function `timeval_min_sec` of `util.c`: the heap afterwards.  The
argument `rnd` is the value the call of `random()` returns. -/
def timeval_min_sec (h : Heap) (d : Nat) (secs : Int) (rnd : Int) : Heap :=
  if (h d).tv_sec = 0 ∨ (h d).tv_sec > secs then
    let h1 := h.write d { h d with tv_sec := secs }
    h1.write d { h1 d with tv_usec := Int.tmod rnd 1000000 }
  else h

/-- The byte indices `in_prefix` reads from each of its two operands: those
`memcmp` is given, and the boundary byte when `memcmp` returns 0. -/
def in_prefix_reads (address pfx : Bytes) (plen : Nat) : List Nat :=
  let plen := to_uchar plen
  let plen := if plen > 128 then 128 else plen
  if memcmp address pfx (plen / 8) ≠ 0 then List.range (plen / 8)
  else List.range (plen / 8) ++ [plen / 8]

/-! ## Texts and `parse_net` -/

/-- A C string: the characters before the terminating NUL. -/
abbrev Text := List Char

/-- The C library function `isspace` in the C locale: the space and the
characters from `\t` to `\r`. -/
def isspace (c : Char) : Bool := c.toNat = 32 || (9 ≤ c.toNat && c.toNat ≤ 13)

/-- The value of a character as a digit, as `strtol` reads it: `0` to `9`
(codes 48 to 57), `a` to `z` (97 to 122) and `A` to `Z` (65 to 90) for 10 to
35; 36 when the character is neither a digit nor a letter. -/
def digit_value (c : Char) : Nat :=
  if 48 ≤ c.toNat ∧ c.toNat ≤ 57 then c.toNat - 48
  else if 97 ≤ c.toNat ∧ c.toNat ≤ 122 then c.toNat - 87
  else if 65 ≤ c.toNat ∧ c.toNat ≤ 90 then c.toNat - 55
  else 36

/-- Whether a character is a digit of the base. -/
def is_digit_in (base : Nat) (c : Char) : Bool := decide (digit_value c < base)

/-- The number a sequence of digits denotes in the base. -/
def digits_value (base : Nat) (ds : Text) : Nat :=
  ds.foldl (fun acc c => acc * base + digit_value c) 0

/-- The largest value of the C type `long` (64 bits). -/
def LONG_MAX : Int := 2 ^ 63 - 1

/-- The smallest value of the C type `long` (64 bits). -/
def LONG_MIN : Int := -(2 ^ 63)

/-- A value brought into the range of `long`, as `strtol` does on overflow. -/
def clamp_long (v : Int) : Int := max LONG_MIN (min v LONG_MAX)

/-- Whether the text after the sign starts with `0x` or `0X` and a hexadecimal
digit, so that `strtol` with base 0 reads it in base 16. -/
def strtol_hex (s2 : Text) : Bool :=
  match s2 with
  | c :: x :: d :: _ => c = '0' ∧ (x = 'x' ∨ x = 'X') ∧ is_digit_in 16 d
  | _ => false

/-- The C library function `strtol(s, &end, 0)`: the value returned and the
text `end` points to.  White space is skipped, a sign is optional, `0x` or
`0X` before a hexadecimal digit selects base 16, a leading `0` base 8, anything
else base 10; the longest run of digits is read; when there is no digit the
value is 0 and `end` is `s`. -/
def strtol (s : Text) : Int × Text :=
  let s1 := s.dropWhile isspace
  let neg : Bool := s1.head? = some '-'
  let s2 := if s1.head? = some '-' ∨ s1.head? = some '+' then s1.tail else s1
  let base := if strtol_hex s2 then 16 else if s2.head? = some '0' then 8 else 10
  let s3 := if strtol_hex s2 then s2.drop 2 else s2
  if s3.takeWhile (is_digit_in base) = [] then (0, s)
  else
    (clamp_long
        (if neg then -(digits_value base (s3.takeWhile (is_digit_in base)) : Int)
         else (digits_value base (s3.takeWhile (is_digit_in base)) : Int)),
      s3.dropWhile (is_digit_in base))

/-- The C library function `strchr(s, c)`: the offset of the first `c` in
`s`, or `none` for the null pointer. -/
def strchr (s : Text) (c : Char) : Option Nat :=
  if (s.takeWhile (fun x => x != c)).length < s.length then
    some (s.takeWhile (fun x => x != c)).length
  else none

/-- The constant `INET6_ADDRSTRLEN` of the system headers. -/
def INET6_ADDRSTRLEN : Nat := 46

/-- The text `default`. -/
def default_text : Text := ['d', 'e', 'f', 'a', 'u', 'l', 't']

/-- The function `parse_address` of `util.c`: the bytes at `addr_r` afterwards
when it returns 0, and `none` when it returns -1.  The argument `inet_pton`
is the C library function `inet_pton(AF_INET6, ·, &ina6)`, which gives the 16
bytes of the address when it returns a positive value. -/
def parse_address (inet_pton : Text → Option Bytes) (address : Text) (addr_r : Bytes) :
    Option Bytes :=
  match inet_pton address with
  | some ina6 => some (memcpy addr_r ina6 16)
  | none => none

/-- The function `parse_net` of `util.c`: the bytes at `prefix_r` and the value
of `*plen_r` when it returns 0, and `none` when it returns -1.  The argument
`local_pfx` is what the local array `prefix` holds on entry, `pfx_r` what the
caller's buffer holds; `buf` is the text before the slash. -/
def parse_net (inet_pton : Text → Option Bytes) (net : Text) (local_pfx pfx_r : Bytes) :
    Option (Bytes × Nat) :=
  let parsed : Option (Bytes × Int) :=
    if net = default_text then some (memset local_pfx 0 16, 0)
    else
      match strchr net '/' with
      | none =>
        match parse_address inet_pton net local_pfx with
        | none => none
        | some pfx => some (pfx, 128)
      | some k =>
        if k ≥ INET6_ADDRSTRLEN then none
        else
          match parse_address inet_pton (net.take k) local_pfx with
          | none => none
          | some pfx =>
            if (strtol (net.drop (k + 1))).2 ≠ [] ∨ (strtol (net.drop (k + 1))).1 < 0 ∨
                (strtol (net.drop (k + 1))).1 > 128 then none
            else some (pfx, (strtol (net.drop (k + 1))).1)
  match parsed with
  | none => none
  | some (pfx, plen) =>
    some ( mask_prefix pfx_r pfx (plen % 256).toNat, (plen % 256).toNat)

/-- Whether an unsigned literal starts with `0x` or `0X`. -/
def literal_hexform (body : Text) : Bool :=
  match body with
  | c :: x :: _ => c = '0' ∧ (x = 'x' ∨ x = 'X')
  | _ => false

/-- The integer a text denotes when it is an integer literal, in the words of
the specification: an optional sign, then a base-10 integer, or `0x` and a
hexadecimal integer, or a leading `0` and an octal integer, of at least one
digit and with no other character; `none` for any other text. -/
def literal_value (s : Text) : Option Int :=
  let neg : Bool := s.head? = some '-'
  let body := if s.head? = some '-' ∨ s.head? = some '+' then s.tail else s
  let base := if literal_hexform body then 16 else if body.head? = some '0' then 8 else 10
  let digits := if literal_hexform body then body.drop 2 else body
  if digits ≠ [] ∧ digits.all (is_digit_in base) = true then
    some (if neg then -(digits_value base digits : Int) else (digits_value base digits : Int))
  else none

/-- An address parser that accepts the text `::` alone, as the zero address. -/
def inet_pton_zero : Text → Option Bytes :=
  fun t => if t = [':', ':'] then some zeroes else none

/-- An address parser that reads every text as `2001:db8:ffff::1`. -/
def inet_pton_const : Text → Option Bytes := fun _ => some addr_2001

/-! ### Helper lemmas on sequence numbers -/

theorem to_uchar_lt (n : Nat) : to_uchar n < 256 := by
  unfold to_uchar; omega

/-- On converted operands `seqno_compare` is the plain comparison. -/
theorem seqno_compare_eq (s1 s2 : Nat) :
    seqno_compare s1 s2 =
      if to_uchar s1 = to_uchar s2 then 0
      else if to_uchar s1 < to_uchar s2 then -1 else 1 := by
  have h1 := to_uchar_lt s1
  have h2 := to_uchar_lt s2
  unfold seqno_compare
  simp only []
  split_ifs <;> omega

/-- On converted operands `seqno_minus` is the plain difference. -/
theorem seqno_minus_eq (s1 s2 : Nat) :
    seqno_minus s1 s2 = (to_uchar s1 : Int) - (to_uchar s2 : Int) := by
  have h1 := to_uchar_lt s1
  have h2 := to_uchar_lt s2
  unfold seqno_minus
  simp only []
  split_ifs <;> omega

/-! ### Claims on sequence numbers -/

/-- C1: at the wraparound edge the code returns 1 where the specification
asks for -1: `seqno_compare(65535, 0)` converts its first argument to 255 and
finds it after 0; and `seqno_compare(256, 0)` is 0 although the two sequence
numbers differ. -/
theorem seqno_compare_wraparound_edge :
    seqno_compare 65535 0 = 1 ∧ seqno_compare 256 0 = 0 := by
  constructor <;> decide

/-- C2: at the wraparound edge the code returns 255 where the specification
asks for -1: `seqno_minus(65535, 0)` converts its first argument to 255; and
`seqno_minus(256, 0)` is 0 where the specification asks for 256. -/
theorem seqno_minus_wraparound_edge :
    seqno_minus 65535 0 = 255 ∧ seqno_minus 256 0 = 0 := by
  constructor <;> decide

/-- C3: for all sequence numbers `s1 ≠ s2` in 0..65535,
`seqno_compare s1 s2 = - seqno_compare s2 s1` and the signs of
`seqno_minus s1 s2` and `seqno_minus s2 s1` are opposite. -/
theorem seqno_antisymmetry (s1 s2 : Nat) (_h1 : s1 < 65536) (_h2 : s2 < 65536)
    (_hne : s1 ≠ s2) :
    seqno_compare s1 s2 = - seqno_compare s2 s1 ∧
      Int.sign (seqno_minus s1 s2) = - Int.sign (seqno_minus s2 s1) := by
  constructor
  · rw [seqno_compare_eq, seqno_compare_eq]
    split_ifs <;> omega
  · rw [seqno_minus_eq s1 s2, seqno_minus_eq s2 s1]
    rw [← Int.sign_neg]
    congr 1
    omega

/-- Witness for C3 at `s1 = 65535`, `s2 = 0`. -/
theorem seqno_antisymmetry_witness :
    seqno_compare 65535 0 = - seqno_compare 0 65535 ∧
      Int.sign (seqno_minus 65535 0) = - Int.sign (seqno_minus 0 65535) :=
  seqno_antisymmetry 65535 0 (by decide) (by decide) (by decide)

/-! ### Helper lemmas on byte buffers -/

theorem memcmpFrom_eq_zero_iff (a b : Bytes) (n : Nat) :
    ∀ k, memcmpFrom a b k n = 0 ↔ ∀ i, i < n → a (k + i) = b (k + i) := by
  induction n with
  | zero => intro k; simp [memcmpFrom]
  | succ n ih =>
    intro k
    unfold memcmpFrom
    by_cases hk : a k = b k
    · rw [if_pos hk, ih (k + 1)]
      constructor
      · intro hall i hi
        cases i with
        | zero => simpa using hk
        | succ j =>
          have := hall j (by omega)
          rw [show k + (j + 1) = k + 1 + j by omega]
          exact this
      · intro hall i hi
        have := hall (i + 1) (by omega)
        rw [show k + 1 + i = k + (i + 1) by omega]
        exact this
    · rw [if_neg hk]
      constructor
      · intro h0
        exact absurd (by omega : a k = b k) hk
      · intro hall
        exact absurd (by simpa using hall 0 (by omega)) hk

/-- The function `memcmp` returns 0 exactly when the first `n` bytes agree. -/
theorem memcmp_eq_zero_iff (a b : Bytes) (n : Nat) :
    memcmp a b n = 0 ↔ ∀ i, i < n → a i = b i := by
  unfold memcmp
  rw [memcmpFrom_eq_zero_iff]
  simp

theorem testBit_to_uchar (x j : Nat) :
    (to_uchar x).testBit j = (decide (j < 8) && x.testBit j) := by
  unfold to_uchar
  rw [show (256 : Nat) = 2 ^ 8 by norm_num, Nat.testBit_mod_two_pow]

theorem testBit_shift_mask (r j : Nat) :
    (0xFF <<< (8 - r)).testBit j = (decide (8 - r ≤ j) && decide (j - (8 - r) < 8)) := by
  rw [Nat.testBit_shiftLeft, show (0xFF : Nat) = 2 ^ 8 - 1 by norm_num,
    Nat.testBit_two_pow_sub_one]

theorem testBit_uchar_mask (r j : Nat) :
    (to_uchar (0xFF <<< (8 - r))).testBit j = decide (8 - r ≤ j ∧ j < 8) := by
  rw [testBit_to_uchar, testBit_shift_mask]
  by_cases h1 : j < 8
  · by_cases h2 : 8 - r ≤ j
    · have h3 : j - (8 - r) < 8 := by omega
      simp [h1, h2, h3]
    · simp [h1, h2]
  · simp [h1]

theorem land_mask_eq_iff (x y r : Nat) :
    (x &&& to_uchar (0xFF <<< (8 - r))) = (y &&& to_uchar (0xFF <<< (8 - r))) ↔
      ∀ j, 8 - r ≤ j → j < 8 → x.testBit j = y.testBit j := by
  constructor
  · intro h j h1 h2
    have := congrArg (fun z => Nat.testBit z j) h
    simpa [Nat.testBit_land, testBit_uchar_mask, h1, h2] using this
  · intro h
    apply Nat.eq_of_testBit_eq
    intro j
    rw [Nat.testBit_land, Nat.testBit_land, testBit_uchar_mask]
    by_cases hj : 8 - r ≤ j ∧ j < 8
    · rw [decide_eq_true hj, h j hj.1 hj.2]
    · rw [decide_eq_false hj, Bool.and_false, Bool.and_false]

theorem byte_eq_iff (x y : Nat) (hx : x < 256) (hy : y < 256) :
    x = y ↔ ∀ j, j < 8 → x.testBit j = y.testBit j := by
  constructor
  · intro h j _; rw [h]
  · intro h
    apply Nat.eq_of_testBit_eq
    intro j
    by_cases hj : j < 8
    · exact h j hj
    · have h8 : (256 : Nat) ≤ 2 ^ j := by
        calc (256 : Nat) = 2 ^ 8 := by norm_num
          _ ≤ 2 ^ j := Nat.pow_le_pow_right (by norm_num) (by omega)
      rw [Nat.testBit_lt_two_pow (by omega), Nat.testBit_lt_two_pow (by omega)]

/-- Agreement on the leading `p` bits, split into the whole bytes and the
leading bits of the boundary byte. -/
theorem prefix_bits_iff (a b : Bytes) (p : Nat)
    (ha : ∀ i, i < p / 8 → a i < 256) (hb : ∀ i, i < p / 8 → b i < 256) :
    ((∀ i, i < p / 8 → a i = b i) ∧
        (∀ j, 8 - p % 8 ≤ j → j < 8 → (a (p / 8)).testBit j = (b (p / 8)).testBit j)) ↔
      ∀ i, i < p → addr_bit a i = addr_bit b i := by
  constructor
  · rintro ⟨hw, hm⟩ i hi
    unfold addr_bit
    by_cases hc : i / 8 < p / 8
    · rw [hw _ hc]
    · have he : i / 8 = p / 8 := by omega
      rw [he]
      exact hm _ (by omega) (by omega)
  · intro hall
    constructor
    · intro i hi
      rw [byte_eq_iff _ _ (ha i hi) (hb i hi)]
      intro j hj
      have h1 := hall (8 * i + (7 - j)) (by omega)
      unfold addr_bit at h1
      rw [show (8 * i + (7 - j)) / 8 = i by omega,
        show 7 - (8 * i + (7 - j)) % 8 = j by omega] at h1
      exact h1
    · intro j hj1 hj2
      have h1 := hall (8 * (p / 8) + (7 - j)) (by omega)
      unfold addr_bit at h1
      rw [show (8 * (p / 8) + (7 - j)) / 8 = p / 8 by omega,
        show 7 - (8 * (p / 8) + (7 - j)) % 8 = j by omega] at h1
      exact h1

/-- The result of `in_prefix` in terms of bits, for any argument `plen`. -/
theorem in_prefix_bits (a b : Bytes) (plen : Nat)
    (ha : ∀ i, i < 16 → a i < 256) (hb : ∀ i, i < 16 → b i < 256) :
    in_prefix a b plen = true ↔
      ∀ i, i < min (to_uchar plen) 128 → addr_bit a i = addr_bit b i := by
  have hmin : (if to_uchar plen > 128 then 128 else to_uchar plen) = min (to_uchar plen) 128 := by
    split_ifs <;> omega
  unfold in_prefix
  simp only [hmin]
  have hp : min (to_uchar plen) 128 ≤ 128 := by omega
  generalize min (to_uchar plen) 128 = p at hp
  rw [← prefix_bits_iff a b p (fun i hi => ha i (by omega)) (fun i hi => hb i (by omega)),
    ← land_mask_eq_iff, ← memcmp_eq_zero_iff]
  by_cases hm : memcmp a b (p / 8) = 0
  · simp [hm]
  · simp [hm]

/-! ### Claims on prefixes -/

/-- C4: for 16-byte operands and `plen` in 0..255, `in_prefix` is true exactly
when the operands agree on their leading `min plen 128` bits (bit 0 being the
most significant bit of byte 0); with `plen = 128` it is true exactly when the
16 bytes are equal; and a `plen` above 128 gives the result of `plen = 128`.
The bytes past the 16th may hold anything. -/
theorem in_prefix_iff (address pfx : Bytes) (plen : Nat)
    (ha : ∀ i, i < 16 → address i < 256) (hp : ∀ i, i < 16 → pfx i < 256)
    (hplen : plen < 256) :
    ( in_prefix address pfx plen = true ↔
        ∀ i, i < min plen 128 → addr_bit address i = addr_bit pfx i) ∧
      ( in_prefix address pfx 128 = true ↔ ∀ i, i < 16 → address i = pfx i) ∧
      (128 < plen → in_prefix address pfx plen = in_prefix address pfx 128) := by
  have hu : to_uchar plen = plen := by unfold to_uchar; omega
  refine ⟨?_, ?_, ?_⟩
  · rw [in_prefix_bits address pfx plen ha hp, hu]
  · rw [in_prefix_bits address pfx 128 ha hp,
      ← prefix_bits_iff address pfx _ (fun i hi => ha i (by unfold to_uchar at hi; omega))
        (fun i hi => hp i (by unfold to_uchar at hi; omega))]
    have h128 : min (to_uchar 128) 128 = 128 := by decide
    rw [h128]
    constructor
    · intro h i hi
      exact h.1 i (by omega)
    · intro h
      exact ⟨fun i hi => h i (by omega), fun j h1 h2 => by omega⟩
  · intro hgt
    rw [Bool.eq_iff_iff, in_prefix_bits address pfx plen ha hp,
      in_prefix_bits address pfx 128 ha hp, hu]
    have h1 : min plen 128 = 128 := by omega
    have h2 : min (to_uchar 128) 128 = 128 := by decide
    rw [h1, h2]

/-- Witness for C4: the address `ff02::1:3` against the prefix `ff00::` with
`plen = 8`. -/
theorem in_prefix_iff_witness :
    ( in_prefix addr_ff02 addr_ff00 8 = true ↔
        ∀ i, i < min 8 128 → addr_bit addr_ff02 i = addr_bit addr_ff00 i) ∧
      ( in_prefix addr_ff02 addr_ff00 128 = true ↔ ∀ i, i < 16 → addr_ff02 i = addr_ff00 i) ∧
      (128 < 8 → in_prefix addr_ff02 addr_ff00 8 = in_prefix addr_ff02 addr_ff00 128) :=
  in_prefix_iff addr_ff02 addr_ff00 8
    (fun i _ => by unfold addr_ff02; split_ifs <;> omega)
    (fun i _ => by unfold addr_ff00; split_ifs <;> omega) (by decide)

/-- The bytes `mask_prefix` leaves at `ret`, in closed form. -/
theorem mask_prefix_apply (ret pfx : Bytes) (plen i : Nat) :
    mask_prefix ret pfx plen i =
      if min (to_uchar plen) 128 % 8 ≠ 0 ∧ i = min (to_uchar plen) 128 / 8 then
        to_uchar (pfx (min (to_uchar plen) 128 / 8) &&&
          (0xFF <<< (8 - min (to_uchar plen) 128 % 8)))
      else if i < min (to_uchar plen) 128 / 8 then pfx i
      else if i < 16 then 0
      else ret i := by
  have hmin : (if to_uchar plen > 128 then 128 else to_uchar plen) = min (to_uchar plen) 128 := by
    split_ifs <;> omega
  unfold mask_prefix
  simp only [hmin]
  generalize min (to_uchar plen) 128 = p
  unfold store memcpy memset to_uchar
  by_cases hr : p % 8 = 0 <;> by_cases hc : i = p / 8 <;> by_cases h1 : i < p / 8 <;>
    by_cases h2 : i < 16 <;> simp [hr, hc, h1, h2]

/-- Bit `i` of the result of `mask_prefix`, for any argument `plen`. -/
theorem mask_prefix_addr_bit (ret pfx : Bytes) (plen i : Nat) (hi : i < 128) :
    addr_bit ( mask_prefix ret pfx plen) i =
      (decide (i < min (to_uchar plen) 128) && addr_bit pfx i) := by
  unfold addr_bit
  rw [mask_prefix_apply]
  have hp : min (to_uchar plen) 128 ≤ 128 := by omega
  generalize min (to_uchar plen) 128 = p at hp
  split_ifs with h1 h2 h3
  · obtain ⟨hr, hc⟩ := h1
    rw [testBit_to_uchar, Nat.testBit_land, testBit_shift_mask, hc]
    have h7 : 7 - i % 8 < 8 := by omega
    by_cases hlt : i < p
    · have ha : 8 - p % 8 ≤ 7 - i % 8 := by omega
      have hb : 7 - i % 8 - (8 - p % 8) < 8 := by omega
      simp [h7, hlt, ha, hb]
    · have ha : ¬ (8 - p % 8 ≤ 7 - i % 8) := by omega
      simp [hlt, ha]
  · have hlt : i < p := by omega
    simp [hlt]
  · have hlt : ¬ i < p := by omega
    simp [hlt]
  · omega

/-- C5: for a 16-byte address and `plen` in 0..255, `mask_prefix` leaves at
`ret` a 16-byte value whose bit `i` (bit 0 being the most significant bit of
byte 0) is bit `i` of the address for `i < min plen 128` and is 0 for every
`i` from `min plen 128` up to 127. -/
theorem mask_prefix_bits (ret address : Bytes) (plen : Nat)
    (ha : ∀ i, i < 16 → address i < 256) (hplen : plen < 256) :
    (∀ i, i < min plen 128 →
        addr_bit ( mask_prefix ret address plen) i = addr_bit address i) ∧
      (∀ i, min plen 128 ≤ i → i < 128 →
        addr_bit ( mask_prefix ret address plen) i = false) ∧
      (∀ j, j < 16 → mask_prefix ret address plen j < 256) := by
  have hu : to_uchar plen = plen := by unfold to_uchar; omega
  refine ⟨?_, ?_, ?_⟩
  · intro i hi
    rw [mask_prefix_addr_bit ret address plen i (by omega), hu]
    simp [hi]
  · intro i hi hi2
    rw [mask_prefix_addr_bit ret address plen i hi2, hu]
    have : ¬ i < min plen 128 := by omega
    simp [this]
  · intro j hj
    rw [mask_prefix_apply]
    split_ifs with h1 h2
    · exact to_uchar_lt _
    · exact ha j hj
    · omega

/-- Witness for C5: `2001:db8:ffff::1` masked to 35 bits. -/
theorem mask_prefix_bits_witness :
    (∀ i, i < min 35 128 →
        addr_bit ( mask_prefix zeroes addr_2001 35) i = addr_bit addr_2001 i) ∧
      (∀ i, min 35 128 ≤ i → i < 128 →
        addr_bit ( mask_prefix zeroes addr_2001 35) i = false) ∧
      (∀ j, j < 16 → mask_prefix zeroes addr_2001 35 j < 256) :=
  mask_prefix_bits zeroes addr_2001 35
    (fun i _ => by unfold addr_2001; split_ifs <;> omega) (by decide)

/-- C6: masking is idempotent: for every address `A` and every `n` in
`[0, 128]`, masking the result of `mask_prefix(A, n)` again with `n` gives the
same 16 bytes, whatever the destination buffers held before. -/
theorem mask_prefix_idempotent (r1 r2 A : Bytes) (n : Nat) (_hn : n ≤ 128) :
    ∀ i, i < 16 →
      mask_prefix r2 ( mask_prefix r1 A n) n i = mask_prefix r1 A n i := by
  intro i hi
  rw [mask_prefix_apply r2, mask_prefix_apply r1 A n i, mask_prefix_apply r1 A n]
  generalize min (to_uchar n) 128 = p
  split_ifs with h1 h2 h3 <;> try (first | rfl | omega)
  · apply Nat.eq_of_testBit_eq
    intro j
    simp only [testBit_to_uchar, Nat.testBit_land]
    cases decide (j < 8) <;> cases (A (p / 8)).testBit j <;>
      cases (0xFF <<< (8 - p % 8)).testBit j <;> rfl

/-- Witness for C6: `2001:db8:ffff::1` masked twice to 35 bits, all 16 bytes. -/
theorem mask_prefix_idempotent_witness :
    (List.range 16).map ( mask_prefix zeroes ( mask_prefix zeroes addr_2001 35) 35) =
      (List.range 16).map ( mask_prefix zeroes addr_2001 35) :=
  List.map_congr_left (fun i hi =>
    mask_prefix_idempotent zeroes zeroes addr_2001 35 (by decide) i (List.mem_range.1 hi))

/-! ### Claims on martian prefixes -/

/-- C7: for every prefix and every integer `plen`, `martian_prefix` is true
exactly when (a) `plen ≥ 8` and byte 0 is 0xFF, or (b) `plen ≥ 10`, byte 0 is
0xFE and the top two bits of byte 1 are `10`, or (c) `plen ≥ 128` and the 16
bytes are all zero; and it is true for `ff00::` with `plen = 8`. -/
theorem martian_prefix_iff (pfx : Bytes) (plen : Int) :
    ( martian_prefix pfx plen = true ↔
        ((plen ≥ 8 ∧ pfx 0 = 0xFF) ∨
         (plen ≥ 10 ∧ pfx 0 = 0xFE ∧ pfx 1 &&& 0xC0 = 0x80) ∨
         (plen ≥ 128 ∧ ∀ i, i < 16 → pfx i = 0))) ∧
      martian_prefix addr_ff00 8 = true := by
  constructor
  · have hz : memcmp pfx zeroes 16 = 0 ↔ ∀ i, i < 16 → pfx i = 0 := by
      rw [memcmp_eq_zero_iff]; simp [zeroes]
    unfold martian_prefix
    simp only [Bool.or_eq_true, Bool.and_eq_true, decide_eq_true_eq, beq_iff_eq, hz]
    tauto
  · decide

/-! ### Helper lemmas on timestamps -/

theorem Heap.write_same (h : Heap) (p : Nat) (v : timeval) : (h.write p v) p = v := by
  simp [Heap.write]

theorem Heap.write_other (h : Heap) (p q : Nat) (v : timeval) (hq : q ≠ p) :
    (h.write p v) q = h q := by
  simp [Heap.write, hq]

/-- The field `tv_sec` read through any pointer is the same after a write that
only changes the field `tv_usec` of a cell. -/
theorem Heap.write_usec_sec (h : Heap) (p q : Nat) (u : Int) :
    ((h.write p { h p with tv_usec := u }) q).tv_sec = (h q).tv_sec := by
  unfold Heap.write
  by_cases hq : q = p
  · subst hq; simp
  · simp [hq]

/-- The value `timeval_minus` leaves in `*d`, whatever the aliasing between
`d`, `s1` and `s2`. -/
theorem timeval_minus_result (h : Heap) (d s1 s2 : Nat) :
    (timeval_minus h d s1 s2) d =
      if (h s1).tv_usec > (h s2).tv_usec then
        ⟨(h s1).tv_sec - (h s2).tv_sec, (h s1).tv_usec - (h s2).tv_usec⟩
      else
        ⟨(h s1).tv_sec - (h s2).tv_sec - 1, (h s1).tv_usec + 1000000 - (h s2).tv_usec⟩ := by
  unfold timeval_minus
  split_ifs
  · simp only [Heap.write_same, Heap.write_usec_sec]
  · simp only [Heap.write_same, Heap.write_usec_sec]

/-- The function `timeval_compare` is positive exactly when its first argument
is strictly later in the lexicographic order on (seconds, sub-second). -/
theorem timeval_compare_pos_iff (a b : timeval) :
    timeval_compare a b > 0 ↔
      (b.tv_sec < a.tv_sec ∨ (b.tv_sec = a.tv_sec ∧ b.tv_usec < a.tv_usec)) := by
  unfold timeval_compare
  split_ifs <;> omega

/-- The function `timeval_compare` is non-negative exactly when the first
timestamp stands for at least as many microseconds as the second, for
normalized timestamps. -/
theorem timeval_compare_nonneg_iff (a b : timeval) (ha : normalized a) (hb : normalized b) :
    timeval_compare a b ≥ 0 ↔ total_usec b ≤ total_usec a := by
  unfold normalized at ha hb
  unfold timeval_compare total_usec
  split_ifs <;> omega

/-! ### Claims on timestamps -/

/-- C8: `timeval_min(d, s)` leaves `*d` unchanged when `s->tv_sec` is 0;
otherwise it stores `*s` in `*d` when `d->tv_sec` is 0 or `*s` is strictly
earlier than `*d` in the lexicographic order on (seconds, sub-second), which is
what `timeval_compare(d, s) > 0` computes; otherwise it leaves `*d` unchanged.
The cell `*s` keeps its value (also when `s` and `d` are the same pointer), and
so does every cell other than `*d`. -/
theorem timeval_min_spec (h : Heap) (d s : Nat) :
    (timeval_min h d s) d =
        (if (h s).tv_sec = 0 then h d
         else if (h d).tv_sec = 0 ∨ (h s).tv_sec < (h d).tv_sec ∨
              ((h s).tv_sec = (h d).tv_sec ∧ (h s).tv_usec < (h d).tv_usec) then h s
         else h d) ∧
      (timeval_compare (h d) (h s) > 0 ↔
        ((h s).tv_sec < (h d).tv_sec ∨
          ((h s).tv_sec = (h d).tv_sec ∧ (h s).tv_usec < (h d).tv_usec))) ∧
      (timeval_min h d s) s = h s ∧
      ∀ p, p ≠ d → (timeval_min h d s) p = h p := by
  have hc := timeval_compare_pos_iff (h d) (h s)
  refine ⟨?_, hc, ?_, ?_⟩
  · unfold timeval_min
    simp only [hc]
    split_ifs <;> simp [Heap.write_same]
  · unfold timeval_min
    split_ifs
    · rfl
    · by_cases hsd : s = d
      · subst hsd; simp [Heap.write_same]
      · simp [Heap.write_other, hsd]
    · rfl
  · intro p hp
    unfold timeval_min
    split_ifs
    · rfl
    · simp [Heap.write_other, hp]
    · rfl

/-- C9, as stated, fails: the timestamp `{0, 1}` is normalized and is not the
value `{0, 0}`, yet `timeval_min` with accumulator `{0, 0}` and candidate
`{0, 1}` leaves the accumulator at `{0, 0}`. -/
theorem timeval_min_infinity_counterexample :
    normalized ⟨0, 1⟩ ∧ (⟨0, 1⟩ : timeval) ≠ infinity ∧
      (timeval_min (heap2 infinity ⟨0, 1⟩) 0 1) 0 = infinity ∧
      (timeval_min (heap2 infinity ⟨0, 1⟩) 0 1) 0 ≠ ⟨0, 1⟩ := by
  decide

/-- C9, amended: for every normalized timestamp `t` whose seconds are not 0,
`timeval_min` with the accumulator at infinity `{0, 0}` and the candidate `t`
leaves the accumulator equal to `t`, and `timeval_min` with the accumulator
`t` and the candidate at infinity leaves the accumulator equal to `t`. -/
theorem timeval_min_infinity (h : Heap) (d s : Nat) (t : timeval)
    (_hn : normalized t) (ht : t.tv_sec ≠ 0) :
    (h d = infinity → h s = t → (timeval_min h d s) d = t) ∧
      (h d = t → h s = infinity → (timeval_min h d s) d = t) := by
  constructor
  · intro hd hs
    unfold timeval_min
    rw [hs, hd]
    simp [ht, infinity, Heap.write_same]
  · intro hd hs
    unfold timeval_min
    rw [hs]
    simp [infinity, hd]

/-- Witness for C9 amended, at `t = {5, 0}` with the accumulator in cell 0 and
the candidate in cell 1. -/
theorem timeval_min_infinity_witness :
    (timeval_min (heap2 infinity ⟨5, 0⟩) 0 1) 0 = ⟨5, 0⟩ ∧
      (timeval_min (heap2 ⟨5, 0⟩ infinity) 0 1) 0 = ⟨5, 0⟩ :=
  ⟨(timeval_min_infinity (heap2 infinity ⟨5, 0⟩) 0 1 ⟨5, 0⟩ (by decide) (by decide)).1 rfl rfl,
   (timeval_min_infinity (heap2 ⟨5, 0⟩ infinity) 0 1 ⟨5, 0⟩ (by decide) (by decide)).2 rfl rfl⟩

/-- C10: for normalized timestamps `a = *s1` and `b = *s2` with `a ≥ b`,
`timeval_minus(d, s1, s2)` leaves in `*d` a value that stands for exactly
`a - b`: `d.tv_sec * 1000000 + d.tv_usec` is the difference of the total
microseconds of `a` and `b`. -/
theorem timeval_minus_exact (h : Heap) (d s1 s2 : Nat)
    (_ha : normalized (h s1)) (_hb : normalized (h s2))
    (_hge : timeval_compare (h s1) (h s2) ≥ 0) :
    ((timeval_minus h d s1 s2) d).tv_sec * 1000000 + ((timeval_minus h d s1 s2) d).tv_usec =
      ((h s1).tv_sec * 1000000 + (h s1).tv_usec) -
        ((h s2).tv_sec * 1000000 + (h s2).tv_usec) := by
  rw [timeval_minus_result]
  split_ifs <;> simp only [] <;> ring

/-- Witness for C10 at `a = {7, 250000}`, `b = {3, 250000}`, where the
sub-second components are equal. -/
theorem timeval_minus_exact_witness :
    ((timeval_minus (heap2 ⟨7, 250000⟩ ⟨3, 250000⟩) 2 0 1) 2).tv_sec * 1000000 +
        ((timeval_minus (heap2 ⟨7, 250000⟩ ⟨3, 250000⟩) 2 0 1) 2).tv_usec =
      (7 * 1000000 + 250000) - (3 * 1000000 + 250000) :=
  timeval_minus_exact (heap2 ⟨7, 250000⟩ ⟨3, 250000⟩) 2 0 1 (by decide) (by decide) (by decide)

/-! ### Helper lemmas on millisecond arithmetic -/

/-- Truncating division by a positive constant: quotient and remainder
recombine, and the remainder has the sign of the dividend. -/
theorem tdiv_tmod_bounds (a b : Int) (hb : 0 < b) :
    b * Int.tdiv a b + Int.tmod a b = a ∧
      (0 ≤ a → 0 ≤ Int.tmod a b ∧ Int.tmod a b < b) ∧
      (a ≤ 0 → -b < Int.tmod a b ∧ Int.tmod a b ≤ 0) := by
  refine ⟨Int.tdiv_add_tmod a b, ?_, ?_⟩
  · intro ha
    exact ⟨Int.tmod_nonneg b ha, Int.tmod_lt_of_pos a hb⟩
  · intro ha
    have hn : 0 ≤ -a := by omega
    have h1 := Int.tmod_nonneg b hn
    have h2 := Int.tmod_lt_of_pos (-a) hb
    have h3 : Int.tmod (-a) b = -Int.tmod a b := by
      rw [Int.tmod_def, Int.tmod_def, Int.neg_tdiv]; ring
    omega

/-- A value in the range of `int` is kept by the conversion to `int`. -/
theorem to_int_of_fits (x : Int) (h : fits_int x) : to_int x = x := by
  unfold fits_int INT_MIN INT_MAX at h
  unfold to_int
  omega

/-- The value `timeval_plus_msec` leaves in `*d`, whatever the aliasing between
`d` and `s`. -/
theorem timeval_plus_msec_result (h : Heap) (d s : Nat) (msecs : Int) :
    (timeval_plus_msec h d s msecs) d =
      if to_int ((h s).tv_usec + Int.tmod msecs 1000 * 1000) < 1000000 then
        ⟨(h s).tv_sec + Int.tdiv msecs 1000,
          to_int ((h s).tv_usec + Int.tmod msecs 1000 * 1000)⟩
      else
        ⟨(h s).tv_sec + Int.tdiv msecs 1000 + 1,
          to_int ((h s).tv_usec + Int.tmod msecs 1000 * 1000) - 1000000⟩ := by
  have hu : ((h.write d { h d with tv_sec := (h s).tv_sec + Int.tdiv msecs 1000 }) s).tv_usec =
      (h s).tv_usec := by
    unfold Heap.write
    by_cases hs : s = d
    · subst hs; simp
    · simp [hs]
  unfold timeval_plus_msec
  simp only [hu]
  split_ifs <;> simp [Heap.write_same]

/-- The value `timeval_min_sec` leaves in `*d`. -/
theorem timeval_min_sec_result (h : Heap) (d : Nat) (secs rnd : Int) :
    (timeval_min_sec h d secs rnd) d =
      if (h d).tv_sec = 0 ∨ (h d).tv_sec > secs then ⟨secs, Int.tmod rnd 1000000⟩
      else h d := by
  unfold timeval_min_sec
  split_ifs <;> simp [Heap.write_same]

/-- For a non-negative offset `timeval_plus_msec` leaves a normalized
timestamp that stands for the base plus the offset. -/
theorem timeval_plus_msec_nonneg (h : Heap) (d s : Nat) (msecs : Int)
    (hs : normalized (h s)) (hm : 0 ≤ msecs) :
    normalized ((timeval_plus_msec h d s msecs) d) ∧
      total_usec ((timeval_plus_msec h d s msecs) d) = total_usec (h s) + 1000 * msecs := by
  obtain ⟨h1, h2, -⟩ := tdiv_tmod_bounds msecs 1000 (by norm_num)
  obtain ⟨h3, h4⟩ := h2 hm
  unfold normalized at hs
  have hfit : to_int ((h s).tv_usec + Int.tmod msecs 1000 * 1000) =
      (h s).tv_usec + Int.tmod msecs 1000 * 1000 := by
    apply to_int_of_fits
    unfold fits_int INT_MIN INT_MAX
    omega
  rw [timeval_plus_msec_result, hfit]
  unfold normalized total_usec
  split_ifs <;> simp only [] <;> omega

/-- The millisecond difference, times 1000, is within a millisecond of the
difference in microseconds, and is exact when the sub-second components
differ by whole milliseconds; for a difference that fits in `int`. -/
theorem timeval_minus_msec_total (a b : timeval)
    (hfit : fits_int (timeval_minus_msec_long a b)) :
    -1000 < 1000 * timeval_minus_msec a b - (total_usec a - total_usec b) ∧
      1000 * timeval_minus_msec a b - (total_usec a - total_usec b) < 1000 ∧
      ((a.tv_usec - b.tv_usec) % 1000 = 0 →
        1000 * timeval_minus_msec a b = total_usec a - total_usec b) := by
  obtain ⟨h1, h2, h3⟩ := tdiv_tmod_bounds (a.tv_usec - b.tv_usec) 1000 (by norm_num)
  unfold timeval_minus_msec
  rw [to_int_of_fits _ hfit]
  unfold timeval_minus_msec_long total_usec
  rcases le_total 0 (a.tv_usec - b.tv_usec) with hpos | hneg
  · obtain ⟨h4, h5⟩ := h2 hpos
    refine ⟨by omega, by omega, fun hm => by omega⟩
  · obtain ⟨h4, h5⟩ := h3 hneg
    refine ⟨by omega, by omega, fun hm => by omega⟩

/-- The sign of the millisecond difference of normalized timestamps, for a
difference that fits in `int`. -/
theorem timeval_minus_msec_sign (a b : timeval) (ha : normalized a) (hb : normalized b)
    (hfit : fits_int (timeval_minus_msec_long a b)) :
    (timeval_compare a b < 0 → timeval_minus_msec a b ≤ 0) ∧
      (timeval_compare a b ≥ 0 → 0 ≤ timeval_minus_msec a b) := by
  obtain ⟨h1, h2, h3⟩ := tdiv_tmod_bounds (a.tv_usec - b.tv_usec) 1000 (by norm_num)
  unfold normalized at ha hb
  unfold timeval_minus_msec
  rw [to_int_of_fits _ hfit]
  unfold timeval_minus_msec_long timeval_compare
  rcases le_total 0 (a.tv_usec - b.tv_usec) with hpos | hneg
  · obtain ⟨h4, h5⟩ := h2 hpos
    constructor <;> intro hc <;> split_ifs at hc <;> omega
  · obtain ⟨h4, h5⟩ := h3 hneg
    constructor <;> intro hc <;> split_ifs at hc <;> omega

/-! ### Claims on timestamp arithmetic -/

/-- C11, as stated, fails: `timeval_plus_msec` with the normalized base
`{5, 0}` and the offset -1 leaves `{5, -1000}`; and `timeval_minus` with the
normalized `a = {7, 250000}` and `b = {3, 250000}`, where `a ≥ b`, leaves
`{3, 1000000}`. -/
theorem timestamp_invariant_counterexample :
    (normalized ⟨5, 0⟩ ∧
      (timeval_plus_msec (heap2 ⟨5, 0⟩ infinity) 1 0 (-1)) 1 = ⟨5, -1000⟩ ∧
      ¬ normalized ((timeval_plus_msec (heap2 ⟨5, 0⟩ infinity) 1 0 (-1)) 1)) ∧
    (normalized ⟨7, 250000⟩ ∧ normalized ⟨3, 250000⟩ ∧
      timeval_compare ⟨7, 250000⟩ ⟨3, 250000⟩ ≥ 0 ∧
      (timeval_minus (heap2 ⟨7, 250000⟩ ⟨3, 250000⟩) 2 0 1) 2 = ⟨3, 1000000⟩ ∧
      ¬ normalized ((timeval_minus (heap2 ⟨7, 250000⟩ ⟨3, 250000⟩) 2 0 1) 2)) := by
  decide

/-- C11, amended: given normalized inputs, the sub-second component of the
result lies in `[0, 1000000)` for `timeval_minus` when `a ≥ b` and the
sub-second components of `a` and `b` differ, for `timeval_plus_msec` with a
non-negative offset, for `timeval_min`, and for `timeval_min_sec` with a
non-negative value of `random()`. -/
theorem timestamp_invariant_preserved (h : Heap) :
    (∀ d s1 s2, normalized (h s1) → normalized (h s2) →
        timeval_compare (h s1) (h s2) ≥ 0 → (h s1).tv_usec ≠ (h s2).tv_usec →
        normalized ((timeval_minus h d s1 s2) d)) ∧
      (∀ d s msecs, normalized (h s) → 0 ≤ msecs →
        normalized ((timeval_plus_msec h d s msecs) d)) ∧
      (∀ d s, normalized (h d) → normalized (h s) → normalized ((timeval_min h d s) d)) ∧
      (∀ d secs rnd, normalized (h d) → 0 ≤ rnd →
        normalized ((timeval_min_sec h d secs rnd) d)) := by
  refine ⟨?_, ?_, ?_, ?_⟩
  · intro d s1 s2 h1 h2 _ hne
    unfold normalized at h1 h2
    rw [timeval_minus_result]
    unfold normalized
    split_ifs <;> simp only [] <;> omega
  · intro d s msecs hs hm
    exact (timeval_plus_msec_nonneg h d s msecs hs hm).1
  · intro d s hd hs
    unfold timeval_min
    split_ifs
    · exact hd
    · rw [Heap.write_same]; exact hs
    · exact hd
  · intro d secs rnd hd hr
    rw [timeval_min_sec_result]
    split_ifs
    · exact ⟨Int.tmod_nonneg _ hr, Int.tmod_lt_of_pos _ (by norm_num)⟩
    · exact hd

/-- Witness for C11 amended, on the heap with `{7, 250000}` in cell 0 and
`{3, 100000}` in cell 1. -/
theorem timestamp_invariant_preserved_witness :
    normalized ((timeval_minus (heap2 ⟨7, 250000⟩ ⟨3, 100000⟩) 2 0 1) 2) ∧
      normalized ((timeval_plus_msec (heap2 ⟨7, 250000⟩ ⟨3, 100000⟩) 2 0 1999) 2) ∧
      normalized ((timeval_min (heap2 ⟨7, 250000⟩ ⟨3, 100000⟩) 0 1) 0) ∧
      normalized ((timeval_min_sec (heap2 ⟨7, 250000⟩ ⟨3, 100000⟩) 0 4 1234567890) 0) :=
  ⟨(timestamp_invariant_preserved (heap2 ⟨7, 250000⟩ ⟨3, 100000⟩)).1 2 0 1
      (by decide) (by decide) (by decide) (by decide),
   (timestamp_invariant_preserved (heap2 ⟨7, 250000⟩ ⟨3, 100000⟩)).2.1 2 0 1999
      (by decide) (by decide),
   (timestamp_invariant_preserved (heap2 ⟨7, 250000⟩ ⟨3, 100000⟩)).2.2.1 0 1
      (by decide) (by decide),
   (timestamp_invariant_preserved (heap2 ⟨7, 250000⟩ ⟨3, 100000⟩)).2.2.2 0 4 1234567890
      (by decide) (by decide)⟩

/-- C12, as stated, fails: with the normalized `a = {1, 500}` and
`b = {1, 0}`, where `a ≥ b`, the millisecond difference is 0 and
`timeval_plus_msec` of `b` and 0 leaves `{1, 0}`, which is not `a`; and with
the normalized `a = {3000000, 0}` and `b = {1, 0}`, where `a ≥ b`, the
difference of 2999999000 ms does not fit in the `int` that
`timeval_minus_msec` returns, which is -1294968296, and `timeval_plus_msec`
leaves `{-1294967, -296000}`. -/
theorem plus_minus_msec_counterexample :
    (normalized ⟨1, 500⟩ ∧ normalized ⟨1, 0⟩ ∧ timeval_compare ⟨1, 500⟩ ⟨1, 0⟩ ≥ 0 ∧
      timeval_minus_msec ⟨1, 500⟩ ⟨1, 0⟩ = 0 ∧
      (timeval_plus_msec (heap2 ⟨1, 500⟩ ⟨1, 0⟩) 2 1
        (timeval_minus_msec ⟨1, 500⟩ ⟨1, 0⟩)) 2 = ⟨1, 0⟩ ∧
      (timeval_plus_msec (heap2 ⟨1, 500⟩ ⟨1, 0⟩) 2 1
        (timeval_minus_msec ⟨1, 500⟩ ⟨1, 0⟩)) 2 ≠ ⟨1, 500⟩) ∧
    (normalized ⟨3000000, 0⟩ ∧ timeval_compare ⟨3000000, 0⟩ ⟨1, 0⟩ ≥ 0 ∧
      timeval_minus_msec ⟨3000000, 0⟩ ⟨1, 0⟩ = -1294968296 ∧
      (timeval_plus_msec (heap2 ⟨3000000, 0⟩ ⟨1, 0⟩) 2 1
        (timeval_minus_msec ⟨3000000, 0⟩ ⟨1, 0⟩)) 2 = ⟨-1294967, -296000⟩ ∧
      (timeval_plus_msec (heap2 ⟨3000000, 0⟩ ⟨1, 0⟩) 2 1
        (timeval_minus_msec ⟨3000000, 0⟩ ⟨1, 0⟩)) 2 ≠ ⟨3000000, 0⟩) := by
  decide

/-- C12, amended: for normalized timestamps `a = *sa` and `b = *sb` with
`a ≥ b` whose sub-second components differ by a whole number of milliseconds
and whose difference in milliseconds fits in an `int`,
`timeval_plus_msec(d, sb, timeval_minus_msec(sa, sb))` leaves in `*d` the
timestamp `a`, seconds and sub-second component alike. -/
theorem plus_minus_msec_roundtrip (h : Heap) (d sa sb : Nat)
    (ha : normalized (h sa)) (hb : normalized (h sb))
    (hge : timeval_compare (h sa) (h sb) ≥ 0)
    (hms : ((h sa).tv_usec - (h sb).tv_usec) % 1000 = 0)
    (hfit : fits_int (timeval_minus_msec_long (h sa) (h sb))) :
    (timeval_plus_msec h d sb (timeval_minus_msec (h sa) (h sb))) d = h sa := by
  have hm0 := (timeval_minus_msec_sign (h sa) (h sb) ha hb hfit).2 hge
  have hex := (timeval_minus_msec_total (h sa) (h sb) hfit).2.2 hms
  obtain ⟨hn, ht⟩ := timeval_plus_msec_nonneg h d sb _ hb hm0
  generalize (timeval_plus_msec h d sb (timeval_minus_msec (h sa) (h sb))) d = r at hn ht
  generalize h sa = a at ha hex ht
  rw [hex] at ht
  unfold normalized at hn ha
  unfold total_usec at ht
  obtain ⟨rs, ru⟩ := r
  obtain ⟨as, au⟩ := a
  simp only [] at hn ha ht
  have h1 : rs = as := by omega
  have h2 : ru = au := by omega
  rw [h1, h2]

/-- Witness for C12 amended, at `a = {7, 250000}` and `b = {3, 750000}`. -/
theorem plus_minus_msec_roundtrip_witness :
    (timeval_plus_msec (heap2 ⟨7, 250000⟩ ⟨3, 750000⟩) 2 1
      (timeval_minus_msec ⟨7, 250000⟩ ⟨3, 750000⟩)) 2 = ⟨7, 250000⟩ :=
  plus_minus_msec_roundtrip (heap2 ⟨7, 250000⟩ ⟨3, 750000⟩) 2 0 1
    (by decide) (by decide) (by decide) (by decide) (by decide)

/-- C13: for a normalized base `*s` and an offset `msecs ≥ 0`,
`timeval_plus_msec` leaves in `*d` a normalized timestamp with
`d.tv_sec * 1000000 + d.tv_usec` equal to
`s.tv_sec * 1000000 + s.tv_usec + 1000 * msecs`. -/
theorem timeval_plus_msec_exact (h : Heap) (d s : Nat) (msecs : Int)
    (hs : normalized (h s)) (hm : 0 ≤ msecs) :
    (0 ≤ ((timeval_plus_msec h d s msecs) d).tv_usec ∧
        ((timeval_plus_msec h d s msecs) d).tv_usec < 1000000) ∧
      ((timeval_plus_msec h d s msecs) d).tv_sec * 1000000 +
          ((timeval_plus_msec h d s msecs) d).tv_usec =
        (h s).tv_sec * 1000000 + (h s).tv_usec + 1000 * msecs := by
  obtain ⟨hn, ht⟩ := timeval_plus_msec_nonneg h d s msecs hs hm
  exact ⟨hn, ht⟩

/-- Witness for C13 at the base `{3, 750000}` and the offset 3500, where the
sub-second component carries into the seconds. -/
theorem timeval_plus_msec_exact_witness :
    (0 ≤ ((timeval_plus_msec (heap2 ⟨3, 750000⟩ infinity) 1 0 3500) 1).tv_usec ∧
        ((timeval_plus_msec (heap2 ⟨3, 750000⟩ infinity) 1 0 3500) 1).tv_usec < 1000000) ∧
      ((timeval_plus_msec (heap2 ⟨3, 750000⟩ infinity) 1 0 3500) 1).tv_sec * 1000000 +
          ((timeval_plus_msec (heap2 ⟨3, 750000⟩ infinity) 1 0 3500) 1).tv_usec =
        (3 : Int) * 1000000 + 750000 + 1000 * 3500 :=
  timeval_plus_msec_exact (heap2 ⟨3, 750000⟩ infinity) 1 0 3500 (by decide) (by decide)

/-- C14, as stated, fails: for the normalized `a = {3000000, 0}` and
`b = {0, 0}`, where `a > b`, the difference of 3000000000 ms does not fit in
the `int` that `timeval_minus_msec` returns: the result is -1294967296, which
is negative and is not within a millisecond of `a - b`. -/
theorem timeval_minus_msec_counterexample :
    normalized ⟨3000000, 0⟩ ∧ normalized ⟨0, 0⟩ ∧
      timeval_compare ⟨3000000, 0⟩ ⟨0, 0⟩ > 0 ∧
      timeval_minus_msec ⟨3000000, 0⟩ ⟨0, 0⟩ = -1294967296 ∧
      ¬ (timeval_minus_msec ⟨3000000, 0⟩ ⟨0, 0⟩ ≥ 0) ∧
      ¬ (|1000 * timeval_minus_msec ⟨3000000, 0⟩ ⟨0, 0⟩ -
          (((3000000 : Int) * 1000000 + 0) - ((0 : Int) * 1000000 + 0))| < 1000) := by
  decide

/-- C14, amended: for normalized timestamps `a` and `b` in either order whose
difference in milliseconds fits in an `int`, with `A` and `B` their totals in
microseconds, `|1000 * timeval_minus_msec(a, b) - (A - B)|` is below 1000, the
result is `≤ 0` when `a < b` and `≥ 0` when `a > b`. -/
theorem timeval_minus_msec_spec (a b : timeval) (ha : normalized a) (hb : normalized b)
    (hfit : fits_int (timeval_minus_msec_long a b)) :
    |1000 * timeval_minus_msec a b -
        ((a.tv_sec * 1000000 + a.tv_usec) - (b.tv_sec * 1000000 + b.tv_usec))| < 1000 ∧
      (timeval_compare a b < 0 → timeval_minus_msec a b ≤ 0) ∧
      (timeval_compare a b > 0 → timeval_minus_msec a b ≥ 0) := by
  obtain ⟨h1, h2, -⟩ := timeval_minus_msec_total a b hfit
  obtain ⟨h3, h4⟩ := timeval_minus_msec_sign a b ha hb hfit
  unfold total_usec at h1 h2
  refine ⟨abs_lt.2 ⟨h1, h2⟩, h3, fun hc => h4 (by omega)⟩

/-- Witness for C14 amended, at `a = {3, 999999}` and `b = {5, 0}`, where
`a < b`. -/
theorem timeval_minus_msec_spec_witness :
    |1000 * timeval_minus_msec ⟨3, 999999⟩ ⟨5, 0⟩ -
        (((3 : Int) * 1000000 + 999999) - ((5 : Int) * 1000000 + 0))| < 1000 ∧
      (timeval_compare ⟨3, 999999⟩ ⟨5, 0⟩ < 0 → timeval_minus_msec ⟨3, 999999⟩ ⟨5, 0⟩ ≤ 0) ∧
      (timeval_compare ⟨3, 999999⟩ ⟨5, 0⟩ > 0 → timeval_minus_msec ⟨3, 999999⟩ ⟨5, 0⟩ ≥ 0) :=
  timeval_minus_msec_spec ⟨3, 999999⟩ ⟨5, 0⟩ (by decide) (by decide) (by decide)

/-! ### Further claims on sequence numbers and prefixes -/

/-- C19: at `(65535, 0)`, where `s1` is circularly before `s2` (the distance
`(s2 - s1) mod 65536` is 1, below 32768), the specification asks for
`seqno_compare` and `seqno_minus` to be negative; the code gives 1 and 255,
both positive.  At `(256, 0)`, where the distance is 65280 and the
specification asks for both to be positive, the code gives 0 and 0. -/
theorem seqno_sign_direction_edge :
    ((0 : Int) - 65535) % 65536 = 1 ∧
      seqno_compare 65535 0 = 1 ∧ seqno_minus 65535 0 = 255 ∧
      Int.sign (seqno_minus 65535 0) = 1 ∧
      ((0 : Int) - 256) % 65536 = 65280 ∧
      seqno_compare 256 0 = 0 ∧ seqno_minus 256 0 = 0 ∧
      Int.sign (seqno_minus 256 0) = 0 := by
  decide

/-- On the code as written the sign of `seqno_minus s1 s2` is
`seqno_compare s1 s2` for every pair of arguments: both are 0 together,
negative together and positive together. -/
theorem seqno_minus_sign_matches (s1 s2 : Nat) :
    Int.sign (seqno_minus s1 s2) = seqno_compare s1 s2 ∧
      (seqno_compare s1 s2 = 0 ↔ seqno_minus s1 s2 = 0) ∧
      (seqno_compare s1 s2 < 0 ↔ seqno_minus s1 s2 < 0) ∧
      (0 < seqno_compare s1 s2 ↔ 0 < seqno_minus s1 s2) := by
  rw [seqno_minus_eq, seqno_compare_eq]
  by_cases h1 : to_uchar s1 = to_uchar s2
  · have h0 : (to_uchar s1 : Int) - (to_uchar s2 : Int) = 0 := by omega
    rw [if_pos h1, h0]
    simp
  · rw [if_neg h1]
    by_cases h2 : to_uchar s1 < to_uchar s2
    · have hneg : (to_uchar s1 : Int) - (to_uchar s2 : Int) < 0 := by omega
      rw [if_pos h2]
      refine ⟨Int.sign_eq_neg_one_of_neg hneg, ?_, ?_, ?_⟩ <;> constructor <;> intro <;> omega
    · have hpos : 0 < (to_uchar s1 : Int) - (to_uchar s2 : Int) := by omega
      rw [if_neg h2]
      refine ⟨Int.sign_eq_one_of_pos hpos, ?_, ?_, ?_⟩ <;> constructor <;> intro <;> omega

/-- Below `plen = 128` every index `in_prefix` reads is below 16. -/
theorem in_prefix_reads_lt (address pfx : Bytes) (plen : Nat) (hplen : to_uchar plen < 128) :
    ∀ i, i ∈ in_prefix_reads address pfx plen → i < 16 := by
  intro i hi
  have hc : ¬ to_uchar plen > 128 := by omega
  unfold in_prefix_reads at hi
  simp only [if_neg hc] at hi
  split_ifs at hi
  · have := List.mem_range.1 hi
    omega
  · rcases List.mem_append.1 hi with h | h
    · have := List.mem_range.1 h
      omega
    · have := List.mem_singleton.1 h
      omega

/-- C20: with `plen = 128` and two equal operands `in_prefix` reads the bytes
at the indices 0 to 15 and then the byte at index 16 of each operand, which
lies past the 16 bytes; the same holds for `plen = 255`. -/
theorem in_prefix_reads_past_end :
    in_prefix_reads zeroes zeroes 128 =
        [0, 1, 2, 3, 4, 5, 6, 7, 8, 9, 10, 11, 12, 13, 14, 15, 16] ∧
      16 ∈ in_prefix_reads zeroes zeroes 255 ∧
      in_prefix zeroes zeroes 128 = true := by
  decide

/-! ### Helper lemmas on texts -/

theorem mem_dropWhile_of_false (p : Char → Bool) (c : Char) (hc : p c = false) :
    ∀ l : Text, c ∈ l → c ∈ l.dropWhile p := by
  intro l
  induction l with
  | nil => intro h; exact h
  | cons a t ih =>
    intro h
    rw [List.dropWhile_cons]
    by_cases ha : p a = true
    · rw [if_pos ha]
      rcases List.mem_cons.1 h with rfl | h'
      · rw [hc] at ha; exact absurd ha (by simp)
      · exact ih h'
    · rw [if_neg ha]; exact h

theorem takeWhile_dropWhile_all (p : Char → Bool) (l : Text) (h : l.all p = true) :
    l.takeWhile p = l ∧ l.dropWhile p = [] := by
  have hall : ∀ x ∈ l, p x = true := by simpa using h
  exact ⟨List.takeWhile_eq_self_iff.2 hall, List.dropWhile_eq_nil_iff.2 hall⟩

theorem takeWhile_dropWhile_not_all (p : Char → Bool) (l : Text)
    (h : ¬ (l ≠ [] ∧ l.all p = true)) :
    l.takeWhile p = [] ∨ l.dropWhile p ≠ [] := by
  by_cases hl : l = []
  · left; rw [hl]; rfl
  · right
    intro hd
    apply h
    refine ⟨hl, ?_⟩
    have := List.dropWhile_eq_nil_iff.1 hd
    simpa using this

theorem slash_not_digit (base : Nat) (hb : base ≤ 36) : is_digit_in base '/' = false := by
  have h : digit_value '/' = 36 := by decide
  unfold is_digit_in
  rw [h]
  simp
  omega

/-- The shape of a text that `strtol` reads in base 16. -/
theorem strtol_hex_true (s2 : Text) (h : strtol_hex s2 = true) :
    ∃ x d t, s2 = '0' :: x :: d :: t ∧ (x = 'x' ∨ x = 'X') ∧ is_digit_in 16 d = true := by
  unfold strtol_hex at h
  split at h
  · rename_i c x d t
    simp only [decide_eq_true_eq] at h
    obtain ⟨hc, hx, hd⟩ := h
    exact ⟨x, d, t, by rw [hc], hx, hd⟩
  · exact absurd h (by simp)

/-- The function `strtol` never reads past a slash. -/
theorem strtol_slash (s : Text) (h : '/' ∈ s) : (strtol s).2 ≠ [] := by
  unfold strtol
  simp only []
  have h1 : '/' ∈ s.dropWhile isspace := mem_dropWhile_of_false isspace '/' (by decide) s h
  generalize s.dropWhile isspace = s1 at h1
  have h2 : '/' ∈ (if s1.head? = some '-' ∨ s1.head? = some '+' then s1.tail else s1) := by
    split_ifs with hs
    · cases s1 with
      | nil => exact absurd h1 (by simp)
      | cons c t =>
        rcases List.mem_cons.1 h1 with hc | ht
        · subst hc
          simp at hs
        · exact ht
    · exact h1
  generalize (if s1.head? = some '-' ∨ s1.head? = some '+' then s1.tail else s1) = s2 at h2
  generalize (decide (s1.head? = some '-')) = neg
  have h3 : '/' ∈ (if strtol_hex s2 = true then s2.drop 2 else s2) := by
    split_ifs with hh
    · obtain ⟨x, d, t, rfl, hx, -⟩ := strtol_hex_true s2 hh
      have hx' : '/' ≠ x := by rcases hx with rfl | rfl <;> decide
      simp only [List.mem_cons] at h2
      simp only [List.drop_succ_cons, List.drop_zero, List.mem_cons]
      rcases h2 with h2 | h2 | h2
      · exact absurd h2 (by decide)
      · exact absurd h2 hx'
      · exact h2
    · exact h2
  have hb : (if strtol_hex s2 = true then 16 else if s2.head? = some '0' then 8 else 10) ≤ 36 := by
    split_ifs <;> omega
  generalize (if strtol_hex s2 = true then s2.drop 2 else s2) = s3 at h3
  generalize (if strtol_hex s2 = true then 16 else if s2.head? = some '0' then 8 else 10) = base at hb
  by_cases hds : s3.takeWhile (is_digit_in base) = []
  · rw [if_pos hds]
    intro hs
    simp only [] at hs
    rw [hs] at h
    simp at h
  · rw [if_neg hds]
    intro hs
    simp only [] at hs
    have := mem_dropWhile_of_false (is_digit_in base) '/' (slash_not_digit base hb) s3 h3
    rw [hs] at this
    simp at this

/-- The last step of `strtol`, on the text `s3` that follows the sign and the
base marker: when `s3` is a non-empty run of digits it is read whole, and
otherwise either nothing is read or something is left over. -/
theorem strtol_tail_cases (neg : Bool) (base : Nat) (s3 s : Text) :
    (s3 ≠ [] ∧ s3.all (is_digit_in base) = true →
        (if s3.takeWhile (is_digit_in base) = [] then ((0 : Int), s)
         else
          (clamp_long
              (if neg = true then -(digits_value base (s3.takeWhile (is_digit_in base)) : Int)
               else (digits_value base (s3.takeWhile (is_digit_in base)) : Int)),
            s3.dropWhile (is_digit_in base))) =
          (clamp_long (if neg = true then -(digits_value base s3 : Int)
            else (digits_value base s3 : Int)), [])) ∧
      (¬ (s3 ≠ [] ∧ s3.all (is_digit_in base) = true) →
        (if s3.takeWhile (is_digit_in base) = [] then ((0 : Int), s)
         else
          (clamp_long
              (if neg = true then -(digits_value base (s3.takeWhile (is_digit_in base)) : Int)
               else (digits_value base (s3.takeWhile (is_digit_in base)) : Int)),
            s3.dropWhile (is_digit_in base))) = (0, s) ∨
        (if s3.takeWhile (is_digit_in base) = [] then ((0 : Int), s)
         else
          (clamp_long
              (if neg = true then -(digits_value base (s3.takeWhile (is_digit_in base)) : Int)
               else (digits_value base (s3.takeWhile (is_digit_in base)) : Int)),
            s3.dropWhile (is_digit_in base))).2 ≠ []) := by
  constructor
  · rintro ⟨hne, hall⟩
    obtain ⟨ht, hd⟩ := takeWhile_dropWhile_all (is_digit_in base) s3 hall
    rw [ht, hd, if_neg hne]
  · intro hn
    by_cases htw : s3.takeWhile (is_digit_in base) = []
    · left; rw [if_pos htw]
    · right
      rw [if_neg htw]
      rcases takeWhile_dropWhile_not_all (is_digit_in base) s3 hn with h | h
      · exact absurd h htw
      · exact h

/-- The shape of a literal that starts with `0x` or `0X`. -/
theorem literal_hexform_true (body : Text) (h : literal_hexform body = true) :
    ∃ x t, body = '0' :: x :: t ∧ (x = 'x' ∨ x = 'X') := by
  unfold literal_hexform at h
  split at h
  · rename_i c x t
    simp only [decide_eq_true_eq] at h
    exact ⟨x, t, by rw [h.1], h.2⟩
  · exact absurd h (by simp)

/-- The function `strtol` against the literals of the specification: after
the white space, either the text is a literal, which `strtol` reads whole, or
it is not, and `strtol` reads nothing or leaves something over. -/
theorem strtol_cases (s : Text) :
    (∃ v, literal_value (s.dropWhile isspace) = some v ∧ strtol s = (clamp_long v, [])) ∨
      (literal_value (s.dropWhile isspace) = none ∧
        (strtol s = (0, s) ∨ (strtol s).2 ≠ [])) := by
  unfold strtol literal_value
  simp only []
  generalize s.dropWhile isspace = s1
  generalize (if s1.head? = some '-' ∨ s1.head? = some '+' then s1.tail else s1) = s2
  generalize (decide (s1.head? = some '-')) = neg
  by_cases hh : strtol_hex s2 = true
  · obtain ⟨x, d, t, rfl, hx, hd⟩ := strtol_hex_true _ hh
    have hl : literal_hexform ('0' :: x :: d :: t) = true := by
      simp [literal_hexform, hx]
    simp only [hh, hl, if_true, List.drop_succ_cons, List.drop_zero]
    obtain ⟨c1, c2⟩ := strtol_tail_cases neg 16 (d :: t) s
    by_cases hall : (d :: t) ≠ [] ∧ (d :: t).all (is_digit_in 16) = true
    · left
      exact ⟨_, by rw [if_pos hall], c1 hall⟩
    · right
      exact ⟨by rw [if_neg hall], c2 hall⟩
  · by_cases hl : literal_hexform s2 = true
    · obtain ⟨x, t, rfl, hx⟩ := literal_hexform_true _ hl
      have hx8 : is_digit_in 8 x = false := by rcases hx with rfl | rfl <;> decide
      have hlit : ¬ (t ≠ [] ∧ t.all (is_digit_in 16) = true) := by
        rintro ⟨hne, hall⟩
        cases t with
        | nil => exact hne rfl
        | cons d t2 =>
          apply hh
          simp only [List.all_cons, Bool.and_eq_true] at hall
          simp [strtol_hex, hx, hall.1]
      have hoct : ¬ (('0' :: x :: t) ≠ [] ∧ ('0' :: x :: t).all (is_digit_in 8) = true) := by
        rintro ⟨-, hall⟩
        simp only [List.all_cons, Bool.and_eq_true] at hall
        rw [hx8] at hall
        exact absurd hall.2.1 (by simp)
      simp only [hh, hl, if_true, if_false, List.head?_cons, List.drop_succ_cons, List.drop_zero]
      right
      exact ⟨by rw [if_neg hlit], (strtol_tail_cases neg 8 ('0' :: x :: t) s).2 hoct⟩
    · simp only [hh, hl, if_false, Bool.false_eq_true]
      generalize (if s2.head? = some '0' then 8 else 10) = base
      obtain ⟨c1, c2⟩ := strtol_tail_cases neg base s2 s
      by_cases hall : s2 ≠ [] ∧ s2.all (is_digit_in base) = true
      · left
        exact ⟨_, by rw [if_pos hall], c1 hall⟩
      · right
        exact ⟨by rw [if_neg hall], c2 hall⟩

theorem digit_not_space (base : Nat) (hb : base ≤ 36) (c : Char)
    (h : is_digit_in base c = true) : isspace c = false := by
  unfold is_digit_in digit_value at h
  unfold isspace
  simp only [decide_eq_true_eq] at h
  simp only [Bool.or_eq_false_iff, Bool.and_eq_false_iff, decide_eq_false_iff_not]
  split_ifs at h <;> omega

/-- A literal of the specification does not start with white space. -/
theorem literal_value_no_space (t : Text) (v : Int) (h : literal_value t = some v) :
    t.dropWhile isspace = t := by
  cases t with
  | nil => rfl
  | cons c rest =>
    have hc : isspace c = false := by
      by_cases hs : c = '-' ∨ c = '+'
      · rcases hs with rfl | rfl <;> decide
      · unfold literal_value at h
        have hs' : ¬ ((c :: rest).head? = some '-' ∨ (c :: rest).head? = some '+') := by
          simpa using hs
        simp only [if_neg hs'] at h
        by_cases hl : literal_hexform (c :: rest) = true
        · obtain ⟨x, t, heq, -⟩ := literal_hexform_true _ hl
          have : c = '0' := (List.cons.inj heq).1
          rw [this]; decide
        · simp only [hl, if_false, Bool.false_eq_true] at h
          have hb : (if (c :: rest).head? = some '0' then 8 else 10) ≤ 36 := by
            split_ifs <;> omega
          generalize (if (c :: rest).head? = some '0' then 8 else 10) = base at h hb
          by_cases hall : (c :: rest) ≠ [] ∧ (c :: rest).all (is_digit_in base) = true
          · have := hall.2
            simp only [List.all_cons, Bool.and_eq_true] at this
            exact digit_not_space base hb c this.1
          · rw [if_neg hall] at h
            exact absurd h (by simp)
    rw [List.dropWhile_cons, hc]
    simp

/-- The function `strtol` reads a literal of the specification whole and
returns its value, brought into the range of `long`. -/
theorem strtol_literal (t : Text) (v : Int) (h : literal_value t = some v) :
    strtol t = (clamp_long v, []) := by
  have hns := literal_value_no_space t v h
  rcases strtol_cases t with ⟨w, hw, hst⟩ | ⟨hnone, -⟩
  · rw [hns, h] at hw
    rw [hst, ← Option.some.inj hw]
  · rw [hns, h] at hnone
    exact absurd hnone (by simp)

/-- The first slash of a text `A/S`: what follows it is `S`, or still holds a
slash. -/
theorem first_slash (A S : Text) :
    ((A ++ '/' :: S).takeWhile (fun x => x != '/')).length < (A ++ '/' :: S).length ∧
      ((A ++ '/' :: S).drop (((A ++ '/' :: S).takeWhile (fun x => x != '/')).length + 1) = S ∨
        '/' ∈ (A ++ '/' :: S).drop
          (((A ++ '/' :: S).takeWhile (fun x => x != '/')).length + 1)) := by
  induction A with
  | nil => simp
  | cons a A ih =>
    by_cases ha : a = '/'
    · subst ha
      simp
    · have ha' : (a != '/') = true := by simpa using ha
      simp only [List.cons_append, List.takeWhile_cons, ha', if_true, List.length_cons,
        List.drop_succ_cons]
      exact ⟨by omega, ih.2⟩

/-- A text with a slash is rejected by `parse_net` when `strtol` does not read
what follows the slash to its end, or reads a value outside `[0, 128]`. -/
theorem parse_net_rejects (inet_pton : Text → Option Bytes) (A S : Text)
    (local_pfx pfx_r : Bytes)
    (hbad : (strtol S).2 ≠ [] ∨ (strtol S).1 < 0 ∨ (strtol S).1 > 128) :
    parse_net inet_pton (A ++ '/' :: S) local_pfx pfx_r = none := by
  obtain ⟨hk, hR⟩ := first_slash A S
  have hnd : A ++ '/' :: S ≠ default_text := by
    intro heq
    have : '/' ∈ default_text := by rw [← heq]; simp
    exact absurd this (by decide)
  have hbadR : (strtol ((A ++ '/' :: S).drop
        (((A ++ '/' :: S).takeWhile (fun x => x != '/')).length + 1))).2 ≠ [] ∨
      (strtol ((A ++ '/' :: S).drop
        (((A ++ '/' :: S).takeWhile (fun x => x != '/')).length + 1))).1 < 0 ∨
      (strtol ((A ++ '/' :: S).drop
        (((A ++ '/' :: S).takeWhile (fun x => x != '/')).length + 1))).1 > 128 := by
    rcases hR with h | h
    · rw [h]; exact hbad
    · exact Or.inl (strtol_slash _ h)
  unfold parse_net strchr
  simp only [if_neg hnd, if_pos hk]
  split_ifs with h46
  · rfl
  · cases parse_address inet_pton _ local_pfx <;> rfl

/-- Masking the result of `mask_prefix` again with the same length leaves its
16 bytes as they are. -/
theorem mask_prefix_twice (r1 r2 A : Bytes) (n i : Nat) (hi : i < 16) :
    mask_prefix r2 ( mask_prefix r1 A n) n i = mask_prefix r1 A n i := by
  rw [mask_prefix_apply r2, mask_prefix_apply r1 A n i, mask_prefix_apply r1 A n]
  generalize min (to_uchar n) 128 = p
  split_ifs with h1 h2 h3 <;> try (first | rfl | omega)
  apply Nat.eq_of_testBit_eq
  intro j
  simp only [testBit_to_uchar, Nat.testBit_land]
  cases decide (j < 8) <;> cases (A (p / 8)).testBit j <;>
    cases (0xFF <<< (8 - p % 8)).testBit j <;> rfl

/-- What `parse_net` returns on success: the masking of some address with a
length in `[0, 128]`, and that length. -/
theorem parse_net_some (inet_pton : Text → Option Bytes) (net : Text)
    (local_pfx pfx_r p : Bytes) (plen : Nat)
    (h : parse_net inet_pton net local_pfx pfx_r = some (p, plen)) :
    ∃ pfx, plen ≤ 128 ∧ p = mask_prefix pfx_r pfx plen := by
  unfold parse_net at h
  simp only [] at h
  split at h
  · exact absurd h (by simp)
  · rename_i pfx q heq
    have hq : 0 ≤ q ∧ q ≤ 128 := by
      split_ifs at heq with h1
      · have := (Prod.mk.inj (Option.some.inj heq)).2
        omega
      · split at heq
        · split at heq
          · exact absurd heq (by simp)
          · have := (Prod.mk.inj (Option.some.inj heq)).2
            omega
        · split_ifs at heq with h2 h3
          · split at heq
            · exact absurd heq (by simp)
            · exact absurd heq (by simp)
          · split at heq
            · exact absurd heq (by simp)
            · have := (Prod.mk.inj (Option.some.inj heq)).2
              omega
    have hp := Prod.mk.inj (Option.some.inj h)
    refine ⟨pfx, ?_, ?_⟩
    · rw [← hp.2]; omega
    · rw [← hp.1, ← hp.2]

/-! ### Claims on `parse_net` -/

/-- C15: for every text `A/N` in which `N` is an integer literal whose value
is above 128 or below 0, `parse_net` returns -1, whatever `A` is and whatever
the address parser answers. -/
theorem parse_net_rejects_out_of_range (inet_pton : Text → Option Bytes) (A N : Text)
    (local_pfx pfx_r : Bytes) (v : Int)
    (hlit : literal_value N = some v) (hv : v > 128 ∨ v < 0) :
    parse_net inet_pton (A ++ '/' :: N) local_pfx pfx_r = none := by
  apply parse_net_rejects
  rw [strtol_literal N v hlit]
  right
  simp only []
  unfold clamp_long LONG_MIN LONG_MAX
  omega

/-- Witness for C15: the text `2001:db8::1/129`. -/
theorem parse_net_rejects_out_of_range_witness :
    parse_net inet_pton_const
      (['2', '0', '0', '1', ':', 'd', 'b', '8', ':', ':', '1'] ++ '/' :: ['1', '2', '9'])
      zeroes zeroes = none :=
  parse_net_rejects_out_of_range inet_pton_const
    ['2', '0', '0', '1', ':', 'd', 'b', '8', ':', ':', '1'] ['1', '2', '9'] zeroes zeroes 129
    (by decide) (by decide)

/-- C16, as stated, fails: the text `::/ 64`, whose prefix length starts with
a blank, is accepted with the prefix length 64, and the text `::/`, whose
prefix length is empty, is accepted with the prefix length 0. -/
theorem parse_net_malformed_counterexample :
    isspace ' ' = true ∧
      (parse_net inet_pton_zero ([':', ':'] ++ '/' :: [' ', '6', '4']) zeroes zeroes).map
        Prod.snd = some 64 ∧
      (parse_net inet_pton_zero ([':', ':'] ++ '/' :: []) zeroes zeroes).map
        Prod.snd = some 0 := by
  decide

/-- C16, amended: for every text `A/S` in which `S` is not empty and is not,
after optional leading white space and an optional sign, a base-10 integer, a
`0x` hexadecimal integer or a leading-0 octal integer of at least one digit
with no other character, `parse_net` returns -1. -/
theorem parse_net_rejects_malformed (inet_pton : Text → Option Bytes) (A S : Text)
    (local_pfx pfx_r : Bytes)
    (hne : S ≠ []) (hmal : literal_value (S.dropWhile isspace) = none) :
    parse_net inet_pton (A ++ '/' :: S) local_pfx pfx_r = none := by
  apply parse_net_rejects
  left
  rcases strtol_cases S with ⟨w, hw, -⟩ | ⟨-, h0 | hrest⟩
  · rw [hmal] at hw
    exact absurd hw (by simp)
  · rw [h0]
    exact hne
  · exact hrest

/-- Witness for C16 amended: the text `::/12a`. -/
theorem parse_net_rejects_malformed_witness :
    parse_net inet_pton_zero ([':', ':'] ++ '/' :: ['1', '2', 'a']) zeroes zeroes = none :=
  parse_net_rejects_malformed inet_pton_zero [':', ':'] ['1', '2', 'a'] zeroes zeroes
    (by decide) (by decide)

/-- C17: whenever `parse_net` returns 0 with the outputs `p` and `plen`, the
length is at most 128, every bit of `p` from position `plen` on is zero, and
`mask_prefix(p, plen)` gives the 16 bytes of `p` again; for every text and
every answer of the address parser. -/
theorem parse_net_canonical (inet_pton : Text → Option Bytes) (net : Text)
    (local_pfx pfx_r p : Bytes) (plen : Nat)
    (h : parse_net inet_pton net local_pfx pfx_r = some (p, plen)) :
    plen ≤ 128 ∧
      (∀ i, plen ≤ i → i < 128 → addr_bit p i = false) ∧
      (∀ ret i, i < 16 → mask_prefix ret p plen i = p i) := by
  obtain ⟨pfx, hle, rfl⟩ := parse_net_some inet_pton net local_pfx pfx_r p plen h
  have hu : to_uchar plen = plen := by unfold to_uchar; omega
  refine ⟨hle, ?_, ?_⟩
  · intro i h1 h2
    rw [mask_prefix_addr_bit pfx_r pfx plen i h2, hu]
    have : ¬ i < min plen 128 := by omega
    simp [this]
  · intro ret i hi
    exact mask_prefix_twice pfx_r ret pfx plen i hi

/-- Witness for C17: the text `::/35` with a parser that answers
`2001:db8:ffff::1`. -/
theorem parse_net_canonical_witness :
    35 ≤ 128 ∧
      (∀ i, 35 ≤ i → i < 128 →
        addr_bit ( mask_prefix zeroes (memcpy zeroes addr_2001 16) 35) i = false) ∧
      (∀ ret i, i < 16 →
        mask_prefix ret ( mask_prefix zeroes (memcpy zeroes addr_2001 16) 35) 35 i =
          mask_prefix zeroes (memcpy zeroes addr_2001 16) 35 i) :=
  parse_net_canonical inet_pton_const ([':', ':'] ++ '/' :: ['3', '5']) zeroes zeroes
    ( mask_prefix zeroes (memcpy zeroes addr_2001 16) 35) 35 rfl

/-- C18: on the text `default`, `parse_net` returns 0 with the prefix length
0 and 16 zero bytes, whatever the address parser is, also one that rejects
every text. -/
theorem parse_net_default (inet_pton : Text → Option Bytes) (local_pfx pfx_r : Bytes) :
    ∃ p, parse_net inet_pton default_text local_pfx pfx_r = some (p, 0) ∧
      (∀ i, i < 16 → p i = 0) ∧
      parse_net (fun _ => none) default_text local_pfx pfx_r = some (p, 0) := by
  refine ⟨ mask_prefix pfx_r (memset local_pfx 0 16) 0, ?_, ?_, ?_⟩
  · unfold parse_net
    simp
  · intro i hi
    rw [mask_prefix_apply]
    simp [to_uchar, hi]
  · unfold parse_net
    simp

end Babel
